import Mathlib

/-!
# Verification of the leetcode-compensation sync/extraction pipeline

Shallow embedding of the incremental synchronization and record-lifecycle
pipeline of the repository (`src/leetcomp`), together with theorems checking
the natural-language specification against it.

Modelling conventions:
* A JSON-lines store file is a `List Line`; a line is either `malformed`
  (raises `json.JSONDecodeError` when loaded) or a well-formed JSON object
  carrying an optional `id` field and an optional `creation_date` field.
  Date strings are modelled by their parsed value (an `Int` timestamp): the
  pipeline always writes dates produced by `strftime` with the configured
  format, which `strptime` parses back.
* Fallible Python code (uncaught exceptions) is embedded with `Except`.
* Remote services (GraphQL list/detail queries, the OpenAI extraction call)
  are parameters of the drivers: a detail fetch is a function
  `String → Option Post` (`none` = the call raised after its retry budget),
  the extraction service is `String → Option (List RawOffer)`.
* Monetary amounts and years-of-experience are modelled as rationals `ℚ`
  (the Python floats at the inputs of interest are exact).
-/

namespace LeetComp

/-- One line of a JSON-lines store file: either malformed JSON, or an object
with an optional `id` field and an optional parseable `creation_date`. -/
inductive Line where
  | malformed : Line
  | obj : Option String → Option Int → Line
deriving DecidableEq, Repr

namespace Line

/-- The `id` field of a line, when the line parses and has one. -/
def idOf : Line → Option String
  | .malformed => none
  | .obj i _ => i

/-- The record content of a line when it parses and carries a
`creation_date` (what `sort_and_truncate` keeps). -/
def datedRec : Line → Option (Option String × Int)
  | .malformed => none
  | .obj _ none => none
  | .obj i (some d) => some (i, d)

/-- Date of a line, defaulting to 0; only used on lines known to carry a
`creation_date`. -/
def dateD : Line → Int
  | .obj _ (some d) => d
  | _ => 0

end Line

namespace DataProc

/-- Embedding of `get_existing_ids` from `src/leetcomp/utils/data_processing.py`:
missing file ⇒ empty set; malformed lines are skipped (`json.JSONDecodeError`
is caught); a well-formed line missing the `id` field raises `KeyError`
(uncaught), modelled as `.error ()`. -/
def get_existing_ids_go : List Line → Except Unit (List String)
  | [] => .ok []
  | .malformed :: rest => get_existing_ids_go rest
  | .obj none _ :: _ => .error ()
  | .obj (some i) _ :: rest => (get_existing_ids_go rest).map (i :: ·)

/-- `get_existing_ids` over an optional file (`none` = file does not exist). -/
def get_existing_ids : Option (List Line) → Except Unit (List String)
  | none => .ok []
  | some lines => get_existing_ids_go lines

end DataProc

namespace Refresh

/-- Embedding of the module-local `get_existing_ids` of
`src/leetcomp/refresh.py` (lines 89–99): it has no `try/except`, so a
malformed line raises `json.JSONDecodeError` and a well-formed line missing
`id` raises `KeyError`; both are modelled as `.error ()`. -/
def get_existing_ids_go : List Line → Except Unit (List String)
  | [] => .ok []
  | .malformed :: _ => .error ()
  | .obj none _ :: _ => .error ()
  | .obj (some i) _ :: rest => (get_existing_ids_go rest).map (i :: ·)

/-- `refresh.get_existing_ids` over an optional file (`none` = missing file,
which the `os.path.exists` guard turns into the empty set). -/
def get_existing_ids : Option (List Line) → Except Unit (List String)
  | none => .ok []
  | some lines => get_existing_ids_go lines

end Refresh

namespace Utils

/-- Embedding of `latest_parsed_date` from `src/leetcomp/utils.py`:
scan lines in file order and return the date of the first line that parses
and carries `creation_date`; malformed lines are skipped (caught);
missing/empty/invalid-only file ⇒ `none` (callers pass `none` for a
missing file). -/
def latest_parsed_date : List Line → Option Int
  | [] => none
  | .obj _ (some d) :: _ => some d
  | _ :: rest => latest_parsed_date rest

/-- The "newest first" comparison used by `records.sort(key=..., reverse=True)`:
`a` may precede `b` iff `a`'s date is ≥ `b`'s date. -/
def newestFirst (a b : Option String × Int) : Prop := b.2 ≤ a.2

instance : DecidableRel newestFirst := fun a b => inferInstanceAs (Decidable (b.2 ≤ a.2))

instance : IsTotal (Option String × Int) newestFirst :=
  ⟨fun a b => le_total b.2 a.2⟩

instance : IsTrans (Option String × Int) newestFirst :=
  ⟨fun _ _ _ h1 h2 => le_trans h2 h1⟩

/-- Embedding of `sort_and_truncate` from `src/leetcomp/utils.py`
(lines 81–146): keep every syntactically valid line carrying
`creation_date`, sort those records newest-first (Python's sort is stable;
any stable sort agrees, here insertion sort), optionally truncate to
`max_recs`, and rewrite the file. If no valid record is found the function
returns early and the file is left unchanged. -/
def sort_and_truncate (maxRecs : ℕ) (truncate : Bool) (file : List Line) : List Line :=
  let valid := file.filterMap Line.datedRec
  if valid.isEmpty then file
  else
    let sorted := valid.insertionSort newestFirst
    let kept := if truncate then sorted.take maxRecs else sorted
    kept.map (fun r => Line.obj r.1 (some r.2))

end Utils

namespace Retry

/-- What a call of a Python function wrapped by `retry_with_exp_backoff` can
do: return a value, propagate an exception, or fall off the end of the
`while` loop and return `None`. -/
inductive RetryOutcome (ε α : Type) where
  | value : α → RetryOutcome ε α
  | raised : ε → RetryOutcome ε α
  | noneReturned : RetryOutcome ε α
deriving DecidableEq, Repr

/-- Observable behaviour of one wrapped call: the outcome, the list of sleep
intervals `(2^i, 2^(i+1))` handed to `random.uniform`/`time.sleep` (in
order), and the number of times the wrapped function was invoked. -/
structure RetryTrace (ε α : Type) where
  outcome : RetryOutcome ε α
  sleeps : List (ℕ × ℕ)
  calls : ℕ
deriving DecidableEq, Repr

/-- The `while i <= retries` loop body of `retry_with_exp_backoff`
(`src/leetcomp/utils.py` lines 21–40; `src/leetcomp/utils/helpers.py` has the
identical code). The wrapped function's behaviour on attempt `i` is given by
`f i`. `fuel` counts the attempts still allowed by the loop guard
(`retries - i + 1`); the callers below always pass matching fuel, and
`fuel = 0` is exactly "loop guard false", giving Python's implicit
`return None`. On an exception the wrapper sleeps `uniform(2^i, 2^(i+1))`,
increments `i`, and re-raises when `i` passes `retries`. -/
def retry_loop (f : ℕ → Except ε α) (retries : ℤ) : ℕ → ℕ → RetryTrace ε α
  | _, 0 => ⟨.noneReturned, [], 0⟩
  | i, fuel + 1 =>
    match f i with
    | .ok a => ⟨.value a, [], 1⟩
    | .error e =>
      if retries < (i : ℤ) + 1 then ⟨.raised e, [(2 ^ i, 2 ^ (i + 1))], 1⟩
      else
        let r := retry_loop f retries (i + 1) fuel
        ⟨r.outcome, (2 ^ i, 2 ^ (i + 1)) :: r.sleeps, r.calls + 1⟩

/-- Embedding of `retry_with_exp_backoff(retries)` applied to a function
whose attempt-by-attempt behaviour is `f`: start at `i = 1` with
`retries` attempts allowed (`(max retries 0).toNat`, so a non-positive
budget never enters the loop). -/
def retry_with_exp_backoff (f : ℕ → Except ε α) (retries : ℤ) : RetryTrace ε α :=
  retry_loop f retries 1 retries.toNat

end Retry

namespace Api

/-- Embedding of `CompensationOffer.validate_base_offer` from
`src/leetcomp/utils/leetcode_api.py` (lines 63–83): if the value exceeds the
configured maximum it may be in absolute rupees, so try dividing by 100000
(lakhs); accept the converted value when it lands in range, otherwise accept
the original value when it is in range, otherwise raise (`none`). -/
def validate_base_offer (minBase maxBase v : ℚ) : Option ℚ :=
  if maxBase < v ∧ minBase ≤ v / 100000 ∧ v / 100000 ≤ maxBase then
    some (v / 100000)
  else if minBase ≤ v ∧ v ≤ maxBase then some v
  else none

/-- Embedding of `CompensationOffer.validate_total_offer` from
`src/leetcomp/utils/leetcode_api.py` (lines 85–105), same unit inference on
the total-offer range. -/
def validate_total_offer (minTotal maxTotal v : ℚ) : Option ℚ :=
  if maxTotal < v ∧ minTotal ≤ v / 100000 ∧ v / 100000 ≤ maxTotal then
    some (v / 100000)
  else if minTotal ≤ v ∧ v ≤ maxTotal then some v
  else none

end Api

/-- Embedding of `has_crossed_till_date` (identical in
`src/leetcomp/refresh.py` lines 78–82 and `src/leetcomp/parse.py`
lines 104–112): no watermark ⇒ `False`; otherwise the post's parsed date
compared against the watermark with `≤`. -/
def has_crossed_till_date (creation_date : ℤ) (till : Option ℤ) : Bool :=
  match till with
  | none => false
  | some t => decide (creation_date ≤ t)

/-- Substring test over the underlying character list, modelling Python's
`pat in s`: `pat` occurs contiguously in `s`. -/
def containsSub (s pat : String) : Bool := decide (pat.data <:+: s.data)

/-- Python's `s.lower()` at the character-list level (the repository's
keywords are ASCII). -/
def lowerStr (s : String) : List Char := s.data.map Char.toLower

namespace Parse

/-- One structured offer as returned by the extraction service, before
pydantic validation (the fields of `CompensationOffer` in
`src/leetcomp/parse.py` lines 34–67). -/
structure RawOffer where
  company : String
  role : String
  yoe : ℚ
  base_offer : ℚ
  total_offer : ℚ
  location : Option String
  non_indian : Option String
deriving DecidableEq, Repr

/-- The `config["parsing"]` numeric ranges used by the offer validators. -/
structure ParseCfg where
  min_base_offer : ℚ
  max_base_offer : ℚ
  min_total_offer : ℚ
  max_total_offer : ℚ
deriving DecidableEq, Repr

/-- Pydantic validation of one offer against the `CompensationOffer` model of
`src/leetcomp/parse.py` (lines 34–67): `yoe` in `[0, 50]`, `base_offer` and
`total_offer` within the configured ranges (plain `ge`/`le` bounds, no unit
inference in this model), no "intern" substring in the lowercased role, and
`non_indian ≠ "yes"`. -/
def offer_is_valid (cfg : ParseCfg) (o : RawOffer) : Bool :=
  decide (0 ≤ o.yoe) && decide (o.yoe ≤ 50) &&
  decide (cfg.min_base_offer ≤ o.base_offer) &&
  decide (o.base_offer ≤ cfg.max_base_offer) &&
  decide (cfg.min_total_offer ≤ o.total_offer) &&
  decide (o.total_offer ≤ cfg.max_total_offer) &&
  !(decide ("intern".data <:+: lowerStr o.role)) &&
  decide (o.non_indian ≠ some "yes")

/-- Embedding of `parse_compensation_with_openai` from
`src/leetcomp/parse.py` (lines 122–148). The external call is `service`;
`none` models an API exception. Pydantic then validates the whole
`CompensationOffers` container inside the same `try`: an empty offer list
raises (`validate_offers`), and if ANY single offer fails a field validator
the whole `model_validate` raises; every such exception is caught and turned
into `None`. Validation is therefore all-or-nothing per post. -/
def parse_compensation_with_openai (cfg : ParseCfg)
    (service : String → Option (List RawOffer)) (input : String) :
    Option (List RawOffer) :=
  match service input with
  | none => none
  | some offers =>
    if offers.isEmpty then none
    else if offers.all (offer_is_valid cfg) then some offers
    else none

/-- One line of the raw store as read back by `comps_posts_iter`: a JSON
object whose `title`/`vote_count` fields may be absent (checked by
`post_should_be_parsed`). -/
structure RawPost where
  id : String
  title : Option String
  content : String
  vote_count : Option ℤ
  comment_count : ℤ
  view_count : ℤ
  creation_date : ℤ
deriving DecidableEq, Repr

/-- Embedding of `post_should_be_parsed` from `src/leetcomp/parse.py`
(lines 87–101): title present, `"|"` in title, `vote_count` present and
non-negative. -/
def post_should_be_parsed (post : RawPost) : Bool :=
  match post.title with
  | none => false
  | some t =>
    if !(t.data.contains (Char.ofNat 124)) then false
    else
      match post.vote_count with
      | none => false
      | some v => decide (0 ≤ v)

/-- One `ParsedOffer` record as written to the parsed store. -/
structure ParsedRec where
  id : String
  vote_count : ℤ
  comment_count : ℤ
  view_count : ℤ
  creation_date : ℤ
  company : String
  role : String
  yoe : ℚ
  base_offer : ℚ
  total_offer : ℚ
  location : String
  interview_exp : String
deriving DecidableEq, Repr

/-- Embedding of `get_parsed_posts` from `src/leetcomp/parse.py`
(lines 157–180): one record per offer, copying the parent post's
denormalized fields. `extractIE` is the pure regex helper
`extract_interview_exp` (a parameter of the model; no claim depends on it).
The `vote_count`/`title` accesses are guarded by `post_should_be_parsed`,
so the defaults are never observed. Python's `offer.location or "n/a"`
turns both a missing and an empty location into `"n/a"`. -/
def get_parsed_posts (extractIE : String → String) (post : RawPost)
    (offers : List RawOffer) : List ParsedRec :=
  offers.map fun o =>
    { id := post.id
      vote_count := post.vote_count.getD 0
      comment_count := post.comment_count
      view_count := post.view_count
      creation_date := post.creation_date
      company := o.company
      role := o.role
      yoe := o.yoe
      base_offer := o.base_offer
      total_offer := o.total_offer
      location :=
        match o.location with
        | none => "n/a"
        | some s => if s = "" then "n/a" else s
      interview_exp := extractIE post.content }

/-- Embedding of `fill_yoe` from `src/leetcomp/parse.py` (lines 183–188):
when one post yields more than one offer, every record after the first gets
the first record's `yoe` (the Python code mutates in place; this is the
functional version). -/
def fill_yoe (ps : List ParsedRec) : List ParsedRec :=
  if 1 < ps.length then
    match ps with
    | [] => ps
    | p :: rest => p :: rest.map (fun q => { q with yoe := p.yoe })
  else ps

/-- Embedding of the main loop of `parse_posts` from `src/leetcomp/parse.py`
(lines 191–235), returning the list of `ParsedOffer` records appended to the
parsed store: skip posts already parsed or failing `post_should_be_parsed`;
stop entirely at the watermark; otherwise call the extraction service on
`title + "\n---\n" + content` and, when it returns a non-empty validated
offer list, write `fill_yoe(get_parsed_posts(...))` for that post. -/
def parse_posts (cfg : ParseCfg) (service : String → Option (List RawOffer))
    (extractIE : String → String) (parsed_ids : List String)
    (till_date : Option ℤ) : List RawPost → List ParsedRec
  | [] => []
  | post :: rest =>
    if post.id ∈ parsed_ids || !post_should_be_parsed post then
      parse_posts cfg service extractIE parsed_ids till_date rest
    else if has_crossed_till_date post.creation_date till_date then []
    else
      let input := post.title.getD "" ++ "\n---\n" ++ post.content
      match parse_compensation_with_openai cfg service input with
      | some offers =>
        if offers.isEmpty then
          parse_posts cfg service extractIE parsed_ids till_date rest
        else
          fill_yoe (get_parsed_posts extractIE post offers) ++
            parse_posts cfg service extractIE parsed_ids till_date rest
      | none => parse_posts cfg service extractIE parsed_ids till_date rest

end Parse

namespace Refresh

/-- The `LeetCodePost` dataclass of `src/leetcomp/refresh.py` (lines 15–23),
as derived from a detail payload by `parse_post_data`; `creation_date` is
the parsed value of the formatted date string. -/
structure Post where
  id : String
  title : String
  content : String
  vote_count : ℤ
  comment_count : ℤ
  view_count : ℤ
  creation_date : ℤ
deriving DecidableEq, Repr

/-- `LAG_DAYS` of `src/leetcomp/refresh.py` (line 13). The copy of the code
in `src/leetcomp/utils/leetcode_api.py` (line 15) uses 5 instead; the lag is
therefore a parameter of the driver model below. -/
def LAG_DAYS : ℤ := 3

/-- `LAG_DAYS` of `src/leetcomp/utils/leetcode_api.py` (line 15). -/
def LAG_DAYS_api : ℤ := 5

/-- Embedding of `is_within_lag_period` (`src/leetcomp/refresh.py`
lines 84–87, and identically with its own constant
`src/leetcomp/utils/leetcode_api.py` lines 205–209): the post's date is
strictly newer than `now - lag`. -/
def is_within_lag_period (now lag d : ℤ) : Bool := decide (now - lag < d)

/-- Embedding of `LeetCodeFetcher.should_parse_post`
(`src/leetcomp/refresh.py` lines 71–76): `"|"` in the title and a
non-negative net vote count. -/
def should_parse_post (p : Post) : Bool :=
  p.title.data.contains (Char.ofNat 124) && decide (0 ≤ p.vote_count)

/-- Observable state of one `refresh_posts` run: the records appended to the
raw store (in order), `new_posts_count`, `skipped_due_to_lag`, the trace of
`fetch_post_details` calls, and the number of `fetch_posts_list` calls. -/
structure RunState where
  records : List Post
  count : ℕ
  lag_skips : ℕ
  detail_calls : List String
  pages_fetched : ℕ
deriving DecidableEq, Repr

/-- The state at the top of `refresh_posts`'s loop. -/
def initState : RunState := ⟨[], 0, 0, [], 0⟩

/-- Embedding of the `for post_edge in posts_list` loop of `refresh_posts`
(`src/leetcomp/refresh.py` lines 118–147). The list page supplies only
`node.topicId` per edge. In order: skip ids already in `existing` (computed
once, before the loop — it is NOT updated as records are appended); fetch the
item's detail (`detail t = none` models an exception, caught by the
`except`, which skips the item); stop the page (`break`) when the
detail-derived date has crossed the watermark; skip-and-continue when the
date is inside the lag window; otherwise append the post and stop the page
when the quota is reached. The function returns the state at loop exit. -/
def process_items (detail : String → Option Post) (now lag : ℤ)
    (till : Option ℤ) (existing : List String) (maxPosts : ℕ) :
    List String → RunState → RunState
  | [], st => st
  | t :: rest, st =>
    if t ∈ existing then
      process_items detail now lag till existing maxPosts rest st
    else
      match detail t with
      | none =>
        process_items detail now lag till existing maxPosts rest
          { st with detail_calls := st.detail_calls ++ [t] }
      | some p =>
        if has_crossed_till_date p.creation_date till then
          { st with detail_calls := st.detail_calls ++ [t] }
        else if is_within_lag_period now lag p.creation_date then
          process_items detail now lag till existing maxPosts rest
            { st with detail_calls := st.detail_calls ++ [t],
                      lag_skips := st.lag_skips + 1 }
        else if should_parse_post p then
          if maxPosts ≤ st.count + 1 then
            { st with detail_calls := st.detail_calls ++ [t],
                      records := st.records ++ [p], count := st.count + 1 }
          else
            process_items detail now lag till existing maxPosts rest
              { st with detail_calls := st.detail_calls ++ [t],
                        records := st.records ++ [p], count := st.count + 1 }
        else
          process_items detail now lag till existing maxPosts rest
            { st with detail_calls := st.detail_calls ++ [t] }

/-- Embedding of the `while new_posts_count < max_posts` loop of
`refresh_posts` (`src/leetcomp/refresh.py` lines 112–152). `pages` is the
sequence of pages the remote returns for `skip = 0, 50, 100, ...`; after the
supplied pages the remote returns `[]`. Each iteration fetches one page
(counted even when empty), breaks on an empty page, runs the per-item loop,
and breaks when the page was shorter than `first`; note that an inner
`break` (watermark or quota) does NOT break this loop. -/
def refresh_pages (detail : String → Option Post) (now lag : ℤ)
    (till : Option ℤ) (existing : List String) (maxPosts first : ℕ) :
    List (List String) → RunState → RunState
  | [], st =>
    if st.count < maxPosts then
      { st with pages_fetched := st.pages_fetched + 1 }
    else st
  | page :: rest, st =>
    if st.count < maxPosts then
      if page.isEmpty then { st with pages_fetched := st.pages_fetched + 1 }
      else
        if page.length < first then
          process_items detail now lag till existing maxPosts page
            { st with pages_fetched := st.pages_fetched + 1 }
        else
          refresh_pages detail now lag till existing maxPosts first rest
            (process_items detail now lag till existing maxPosts page
              { st with pages_fetched := st.pages_fetched + 1 })
    else st

/-- The JSON line `json.dumps(asdict(post))` appended for one admitted post,
at the store-line level of abstraction. -/
def lineOfPost (p : Post) : Line := .obj (some p.id) (some p.creation_date)

/-- Embedding of `refresh_posts` (`src/leetcomp/refresh.py` lines 101–157):
read the existing ids (the module-local reader, which raises on a malformed
store — a failed run), take the watermark `latest_parsed_date`, run the page
loop with `first = 50`, append the admitted records to the file, and finish
with `sort_and_truncate` (truncation off). Returns the resulting store file
together with the final loop state (for its traces). -/
def refresh_posts (detail : String → Option Post) (now : ℤ) (maxPosts : ℕ)
    (file : List Line) (pages : List (List String)) :
    Except Unit (List Line × RunState) :=
  match get_existing_ids (some file) with
  | .error _ => .error ()
  | .ok existing =>
    let till := Utils.latest_parsed_date file
    let final := refresh_pages detail now LAG_DAYS till existing maxPosts 50
      pages initState
    .ok (Utils.sort_and_truncate 0 false (file ++ final.records.map lineOfPost),
      final)

end Refresh

/-- The sleep-interval bounds `(2^j, 2^(j+1))` generated by attempts
`j = i, i+1, ...` over `n` consecutive failures. -/
def Retry.sleepsFrom (i : ℕ) : ℕ → List (ℕ × ℕ)
  | 0 => []
  | n + 1 => (2 ^ i, 2 ^ (i + 1)) :: Retry.sleepsFrom (i + 1) n

/-- Configured parsing ranges used in the C3 scenario. -/
def c3Cfg : Parse.ParseCfg := ⟨1, 200, 1, 1000⟩

/-- Three offers extracted from one post, of which exactly one (the intern
role) fails validation. -/
def c3Offers : List Parse.RawOffer :=
  [⟨"Google", "SDE", 3, 30, 40, none, none⟩,
   ⟨"Meta", "SWE Intern", 1, 20, 25, none, none⟩,
   ⟨"Amazon", "SDE2", 5, 50, 60, none, none⟩]

/-- A raw post that passes every admission filter. -/
def c3Post : Parse.RawPost :=
  ⟨"p1", some "Google | SDE", "content", some 2, 0, 0, 100⟩

/-- Wrapped-call behaviour used by the C7 witness: attempt 1 raises,
attempt 2 returns. -/
def c7f : ℕ → Except String String :=
  fun i => if i = 1 then .error "e1" else .ok "done"

/-- Detail fetch used by the C1 counterexample: every topic resolves to an
admissible post dated 40 (older than the watermark 50). -/
def c1detail : String → Option Refresh.Post :=
  fun t => some ⟨t, "a|b", "c", 0, 0, 0, 40⟩

/-- Initial raw store for the C1 counterexample: one record dated 50, so the
run's watermark is 50. -/
def c1file : List Line := [Line.obj (some "z") (some 50)]

/-- Remote pages for the C1 counterexample: a full page of 50 edges whose
first item crosses the watermark, followed by a second page. -/
def c1pages : List (List String) := ["a" :: List.replicate 49 "z", ["b"]]

/-- Detail fetch used by the C2 scenarios and witness: every topic resolves
to an admissible post dated 10. -/
def c2detail : String → Option Refresh.Post :=
  fun t => some ⟨t, "a|b", "c", 0, 0, 0, 10⟩

/-- Initial raw store for C2's first scenario: two well-formed lines sharing
one id. -/
def c2fileDup : List Line :=
  [Line.obj (some "d") (some 5), Line.obj (some "d") (some 5)]

/-- Detail fetch used by the C5 witness: every topic resolves to an
admissible post dated 98. -/
def c5detail : String → Option Refresh.Post :=
  fun t => some ⟨t, "a|b", "c", 0, 0, 0, 98⟩

/-! ## Theorems -/

/-- C4: offer numeric validation performs unit inference. With base range
`[1, 200]`, a `base_offer` of `4500000` is divided by `100000` and accepted
as `45`; `45` is accepted unchanged; `99999999` is rejected because
`999.99999` is still out of range after the division; and validation only
ever returns (hence the pipeline only ever persists) values inside the
configured range, for both the base and the total validator. -/
theorem c4_unit_inference_round_trip :
    Api.validate_base_offer 1 200 4500000 = some 45 ∧
    Api.validate_base_offer 1 200 45 = some 45 ∧
    Api.validate_base_offer 1 200 99999999 = none ∧
    (∀ minB maxB v w : ℚ, Api.validate_base_offer minB maxB v = some w →
      minB ≤ w ∧ w ≤ maxB) ∧
    (∀ minT maxT v w : ℚ, Api.validate_total_offer minT maxT v = some w →
      minT ≤ w ∧ w ≤ maxT) := by
  refine ⟨by norm_num [Api.validate_base_offer], by norm_num [Api.validate_base_offer],
    by norm_num [Api.validate_base_offer], ?_, ?_⟩
  · intro minB maxB v w h
    unfold Api.validate_base_offer at h
    split at h
    · rename_i hc
      injection h with h'
      exact h' ▸ ⟨hc.2.1, hc.2.2⟩
    · split at h
      · rename_i hc
        injection h with h'
        exact h' ▸ hc
      · exact absurd h (by simp)
  · intro minT maxT v w h
    unfold Api.validate_total_offer at h
    split at h
    · rename_i hc
      injection h with h'
      exact h' ▸ ⟨hc.2.1, hc.2.2⟩
    · split at h
      · rename_i hc
        injection h with h'
        exact h' ▸ hc
      · exact absurd h (by simp)

/-- Witness for C4: the in-range guarantee applied at the concrete inferred
value `4500000 ↦ 45`. -/
theorem c4_unit_inference_round_trip_witness : (1 : ℚ) ≤ 45 ∧ (45 : ℚ) ≤ 200 :=
  c4_unit_inference_round_trip.2.2.2.1 1 200 4500000 45
    (by norm_num [Api.validate_base_offer])

/-- C9: constructing the retry wrapper with `retries ≤ 0` makes the
`while i <= retries` guard false on entry, so the wrapped function is never
invoked (0 calls), nothing sleeps, and the wrapper silently returns `None`. -/
theorem c9_nonpositive_retries_returns_none (ε α : Type) (f : ℕ → Except ε α)
    (retries : ℤ) (h : retries ≤ 0) :
    Retry.retry_with_exp_backoff f retries =
      ⟨Retry.RetryOutcome.noneReturned, [], 0⟩ := by
  unfold Retry.retry_with_exp_backoff
  rw [Int.toNat_of_nonpos h]
  rfl

/-- Witness for C9 at `retries = 0`. -/
theorem c9_nonpositive_retries_returns_none_witness :
    Retry.retry_with_exp_backoff (fun _ => (Except.ok 7 : Except Unit ℕ)) 0 =
      ⟨Retry.RetryOutcome.noneReturned, [], 0⟩ :=
  c9_nonpositive_retries_returns_none Unit ℕ _ 0 (by decide)

/-- Counterexample for C8: the claim says `existingIds` "skips malformed
lines without raising", but the module-local `get_existing_ids` of
`src/leetcomp/refresh.py` (the one `refresh_posts` actually calls) has no
`try/except`: on a store whose first line is malformed it raises instead of
returning the ids of the well-formed lines. -/
theorem c8_counterexample :
    Refresh.get_existing_ids
        (some [Line.malformed, Line.obj (some "a") none]) = .error () := rfl

/-- C8 (amended): the `get_existing_ids` of
`src/leetcomp/utils/data_processing.py` does satisfy the claim — on a file
whose well-formed lines all carry an `id` it returns exactly those ids,
skipping malformed lines, and it returns the empty set on a missing file —
while the `refresh.py` copy raises on any malformed line. -/
theorem c8_existing_ids (lines : List Line)
    (h : ∀ l ∈ lines, l = Line.malformed ∨ ∃ i d, l = Line.obj (some i) d) :
    DataProc.get_existing_ids (some lines) = .ok (lines.filterMap Line.idOf) ∧
    DataProc.get_existing_ids none = .ok [] ∧
    Refresh.get_existing_ids none = .ok [] ∧
    (Line.malformed ∈ lines → Refresh.get_existing_ids (some lines) = .error ()) := by
  refine ⟨?_, rfl, rfl, ?_⟩
  · induction lines with
    | nil => rfl
    | cons l rest ih =>
      have hrest := ih (fun x hx => h x (List.mem_cons_of_mem l hx))
      rcases h l (List.mem_cons_self l rest) with hl | ⟨i, d, hl⟩
      · subst hl
        simpa [DataProc.get_existing_ids, DataProc.get_existing_ids_go,
          Line.idOf] using hrest
      · subst hl
        simp only [DataProc.get_existing_ids, DataProc.get_existing_ids_go,
          Line.idOf, List.filterMap_cons] at hrest ⊢
        rw [hrest]
        rfl
  · intro hmem
    induction lines with
    | nil => exact absurd hmem (by simp)
    | cons l rest ih =>
      rcases h l (List.mem_cons_self l rest) with hl | ⟨i, d, hl⟩
      · subst hl
        rfl
      · subst hl
        rcases List.mem_cons.mp hmem with hbad | hmem'
        · exact absurd hbad (by simp)
        · have := ih (fun x hx => h x (List.mem_cons_of_mem _ hx)) hmem'
          simp only [Refresh.get_existing_ids, Refresh.get_existing_ids_go] at this ⊢
          rw [this]
          rfl

/-- Witness for C8's amended theorem on a concrete store with one malformed
line among two well-formed ones. -/
theorem c8_existing_ids_witness :
    DataProc.get_existing_ids
        (some [Line.obj (some "a") (some 3), Line.malformed,
               Line.obj (some "b") none]) = .ok ["a", "b"] :=
  (c8_existing_ids
      [Line.obj (some "a") (some 3), Line.malformed, Line.obj (some "b") none]
      (by intro l hl; fin_cases hl
          · exact Or.inr ⟨"a", some 3, rfl⟩
          · exact Or.inl rfl
          · exact Or.inr ⟨"b", none, rfl⟩)).1

/-- The valid records of a file: every syntactically valid line carrying a
`creation_date`. -/
def validRecs (file : List Line) : List (Option String × Int) :=
  file.filterMap Line.datedRec

/-- C6: on a file with more than `maxRecords` valid records,
`sort_and_truncate` with truncation enabled rewrites the file to exactly the
`maxRecords` newest records: the result is the `maxRecords`-prefix of the
descending stable sort of the valid records, has exactly `maxRecords` lines,
is in descending date order (so the first record's date dominates every
other), every kept record's date is ≥ every dropped record's date, and
invalid or dateless lines never survive. -/
theorem c6_truncation_cap (N : ℕ) (file : List Line)
    (hN : N < (validRecs file).length) :
    Utils.sort_and_truncate N true file =
      (((validRecs file).insertionSort Utils.newestFirst).take N).map
        (fun r => Line.obj r.1 (some r.2)) ∧
    (Utils.sort_and_truncate N true file).length = N ∧
    (Utils.sort_and_truncate N true file).Pairwise
      (fun a b => b.dateD ≤ a.dateD) ∧
    (∀ l ∈ Utils.sort_and_truncate N true file, ∃ i d, l = Line.obj i (some d)) ∧
    (∀ x xs, Utils.sort_and_truncate N true file = x :: xs →
      ∀ l ∈ x :: xs, l.dateD ≤ x.dateD) ∧
    (∀ a ∈ ((validRecs file).insertionSort Utils.newestFirst).take N,
      ∀ b ∈ ((validRecs file).insertionSort Utils.newestFirst).drop N,
        b.2 ≤ a.2) := by
  have hne : ¬ (validRecs file).isEmpty = true := by
    intro hempty
    rw [List.isEmpty_iff] at hempty
    rw [hempty] at hN
    simp at hN
  have hout : Utils.sort_and_truncate N true file =
      (((validRecs file).insertionSort Utils.newestFirst).take N).map
        (fun r => Line.obj r.1 (some r.2)) := by
    simp only [Utils.sort_and_truncate, validRecs] at hne ⊢
    rw [if_neg hne]
    simp
  have hsortlen : ((validRecs file).insertionSort Utils.newestFirst).length =
      (validRecs file).length :=
    List.length_insertionSort _ _
  have hsorted : ((validRecs file).insertionSort Utils.newestFirst).Pairwise
      Utils.newestFirst :=
    List.sorted_insertionSort Utils.newestFirst (validRecs file)
  have htakeSorted :
      (((validRecs file).insertionSort Utils.newestFirst).take N).Pairwise
        Utils.newestFirst :=
    hsorted.sublist (List.take_sublist N _)
  refine ⟨hout, ?_, ?_, ?_, ?_, ?_⟩
  · rw [hout, List.length_map, List.length_take, hsortlen]
    omega
  · rw [hout, List.pairwise_map]
    exact htakeSorted.imp (fun h => h)
  · rw [hout]
    intro l hl
    rcases List.mem_map.mp hl with ⟨r, _, rfl⟩
    exact ⟨r.1, r.2, rfl⟩
  · intro x xs hh l hl
    have hpw : (Utils.sort_and_truncate N true file).Pairwise
        (fun a b => b.dateD ≤ a.dateD) := by
      rw [hout, List.pairwise_map]
      exact htakeSorted.imp (fun h => h)
    rw [hh] at hpw
    rcases List.mem_cons.mp hl with rfl | hl'
    · exact le_refl _
    · exact List.rel_of_pairwise_cons hpw hl'
  · intro a ha b hb
    have : ((validRecs file).insertionSort Utils.newestFirst).Pairwise
        Utils.newestFirst := hsorted
    rw [← List.take_append_drop N ((validRecs file).insertionSort Utils.newestFirst)]
      at this
    exact (List.pairwise_append.mp this).2.2 a ha b hb

/-- Witness for C6 on a concrete three-record store truncated to two. -/
theorem c6_truncation_cap_witness :
    Utils.sort_and_truncate 2 true
        [Line.obj (some "a") (some 3), Line.malformed,
         Line.obj (some "b") (some 7), Line.obj (some "c") (some 5)] =
      [Line.obj (some "b") (some 7), Line.obj (some "c") (some 5)] := by
  have h := (c6_truncation_cap 2
      [Line.obj (some "a") (some 3), Line.malformed,
       Line.obj (some "b") (some 7), Line.obj (some "c") (some 5)]
      (by decide)).1
  rw [h]
  rfl

/-- C10: when one raw post yields more than one parsed offer, `fill_yoe`
overwrites the `yoe` of every record after the first with the first record's
`yoe` — so every `ParsedOffer` produced for that post carries the first
offer's `yoe` (and the post's id) — and `parse_posts` applies `fill_yoe` to
a post's record batch before appending it to the parsed store. -/
theorem c10_fill_yoe_uniform :
    (∀ (ie : String → String) (post : Parse.RawPost) (o : Parse.RawOffer)
        (os : List Parse.RawOffer), os ≠ [] →
      ∀ q ∈ Parse.fill_yoe (Parse.get_parsed_posts ie post (o :: os)),
        q.yoe = o.yoe ∧ q.id = post.id) ∧
    (∀ (cfg : Parse.ParseCfg) (service : String → Option (List Parse.RawOffer))
        (ie : String → String) (ids : List String) (till : Option ℤ)
        (post : Parse.RawPost) (rest : List Parse.RawPost)
        (offers : List Parse.RawOffer),
      ¬ post.id ∈ ids → Parse.post_should_be_parsed post = true →
      has_crossed_till_date post.creation_date till = false →
      service (post.title.getD "" ++ "\n---\n" ++ post.content) = some offers →
      offers ≠ [] → offers.all (Parse.offer_is_valid cfg) = true →
      Parse.parse_posts cfg service ie ids till (post :: rest) =
        Parse.fill_yoe (Parse.get_parsed_posts ie post offers) ++
          Parse.parse_posts cfg service ie ids till rest) := by
  constructor
  · intro ie post o os hos q hq
    obtain ⟨o2, os', rfl⟩ : ∃ o2 os', os = o2 :: os' := by
      cases os with
      | nil => exact absurd rfl hos
      | cons a l => exact ⟨a, l, rfl⟩
    simp only [Parse.get_parsed_posts, List.map_cons] at hq
    rw [Parse.fill_yoe, if_pos (by simp)] at hq
    rcases List.mem_cons.mp hq with rfl | hq'
    · exact ⟨rfl, rfl⟩
    · rcases List.mem_map.mp hq' with ⟨r, hr, rfl⟩
      refine ⟨rfl, ?_⟩
      rcases List.mem_cons.mp hr with rfl | hr'
      · rfl
      · rcases List.mem_map.mp hr' with ⟨_, _, rfl⟩
        rfl
  · intro cfg service ie ids till post rest offers hid hsh hcr hs hne hall
    have hoffers : Parse.parse_compensation_with_openai cfg service
        (post.title.getD "" ++ "\n---\n" ++ post.content) = some offers := by
      simp only [Parse.parse_compensation_with_openai, hs]
      rw [if_neg (by simpa using hne), if_pos hall]
    simp only [Parse.parse_posts, hoffers]
    rw [if_neg (by simp [hid, hsh]), if_neg (by simp [hcr]),
      if_neg (by simpa using hne)]

/-- Witness for C10 on a two-offer post: both written records carry the first
offer's `yoe` (3) even though the second offer reported 7. -/
theorem c10_fill_yoe_uniform_witness :
    ({ id := "p", vote_count := 1, comment_count := 0, view_count := 0,
       creation_date := 9, company := "B", role := "SWE", yoe := 3,
       base_offer := 20, total_offer := 25, location := "n/a",
       interview_exp := "N/A" } : Parse.ParsedRec).yoe =
        (⟨"A", "SDE", 3, 10, 12, none, none⟩ : Parse.RawOffer).yoe ∧
    ({ id := "p", vote_count := 1, comment_count := 0, view_count := 0,
       creation_date := 9, company := "B", role := "SWE", yoe := 3,
       base_offer := 20, total_offer := 25, location := "n/a",
       interview_exp := "N/A" } : Parse.ParsedRec).id =
        ({ id := "p", title := some "A | B", content := "c", vote_count := some 1,
           comment_count := 0, view_count := 0, creation_date := 9 } :
          Parse.RawPost).id :=
  c10_fill_yoe_uniform.1 (fun _ => "N/A")
    { id := "p", title := some "A | B", content := "c", vote_count := some 1,
      comment_count := 0, view_count := 0, creation_date := 9 }
    ⟨"A", "SDE", 3, 10, 12, none, none⟩ [⟨"B", "SWE", 7, 20, 25, none, none⟩]
    (by simp)
    { id := "p", vote_count := 1, comment_count := 0, view_count := 0,
      creation_date := 9, company := "B", role := "SWE", yoe := 3,
      base_offer := 20, total_offer := 25, location := "n/a",
      interview_exp := "N/A" }
    (by simp [Parse.fill_yoe, Parse.get_parsed_posts, Parse.ParsedRec.mk.injEq])

/-- `fill_yoe` preserves the number of records. -/
theorem Parse.length_fill_yoe (ps : List Parse.ParsedRec) :
    (Parse.fill_yoe ps).length = ps.length := by
  unfold Parse.fill_yoe
  split
  · cases ps with
    | nil => rfl
    | cons p rest => simp
  · rfl

/-- `fill_yoe` does not change the ids of the records. -/
theorem Parse.fill_yoe_map_id (ps : List Parse.ParsedRec) :
    (Parse.fill_yoe ps).map Parse.ParsedRec.id = ps.map Parse.ParsedRec.id := by
  unfold Parse.fill_yoe
  split
  · cases ps with
    | nil => rfl
    | cons p rest => simp [List.map_map]
  · rfl

/-- Counterexample for C3: on a post whose extraction call yields 3 offers of
which exactly 1 fails validation (2 valid offers remain), `parse_posts`
writes NO records at all — pydantic validates the whole offer list inside the
`try` of `parse_compensation_with_openai`, so one bad offer fails the whole
post — and consequently the post's id is not recorded as processed. The
claim's "exactly 2 ParsedOffer records written" is false. -/
theorem c3_counterexample :
    (c3Offers.filter (Parse.offer_is_valid c3Cfg)).length = 2 ∧
    Parse.parse_posts c3Cfg (fun _ => some c3Offers) (fun _ => "N/A") [] none
        [c3Post] = [] := by
  exact ⟨by decide, by decide⟩

/-- C3 (amended): offer validation is all-or-nothing per post. If the
extraction service returns a non-empty offer list for an admissible,
not-yet-parsed post, then: when every offer validates, all of them are
written (one record per offer, carrying the post's id, so the post counts as
processed); when the list contains any invalid offer, zero records are
written for the post and its id is absent from the parsed store (it will be
retried on a later run). -/
theorem c3_all_or_nothing_validation (cfg : Parse.ParseCfg)
    (service : String → Option (List Parse.RawOffer)) (ie : String → String)
    (ids : List String) (till : Option ℤ) (post : Parse.RawPost)
    (offers : List Parse.RawOffer)
    (hid : ¬ post.id ∈ ids) (hsh : Parse.post_should_be_parsed post = true)
    (hcr : has_crossed_till_date post.creation_date till = false)
    (hs : service (post.title.getD "" ++ "\n---\n" ++ post.content) = some offers)
    (hne : offers ≠ []) :
    (offers.all (Parse.offer_is_valid cfg) = true →
      Parse.parse_posts cfg service ie ids till [post] =
        Parse.fill_yoe (Parse.get_parsed_posts ie post offers) ∧
      (Parse.parse_posts cfg service ie ids till [post]).length = offers.length ∧
      post.id ∈ (Parse.parse_posts cfg service ie ids till [post]).map
        Parse.ParsedRec.id) ∧
    (offers.all (Parse.offer_is_valid cfg) = false →
      Parse.parse_posts cfg service ie ids till [post] = []) := by
  constructor
  · intro hall
    have hoffers : Parse.parse_compensation_with_openai cfg service
        (post.title.getD "" ++ "\n---\n" ++ post.content) = some offers := by
      simp only [Parse.parse_compensation_with_openai, hs]
      rw [if_neg (by simpa using hne), if_pos hall]
    have heq : Parse.parse_posts cfg service ie ids till [post] =
        Parse.fill_yoe (Parse.get_parsed_posts ie post offers) := by
      simp only [Parse.parse_posts, hoffers]
      rw [if_neg (by simp [hid, hsh]), if_neg (by simp [hcr]),
        if_neg (by simpa using hne)]
      simp [Parse.parse_posts]
    refine ⟨heq, ?_, ?_⟩
    · rw [heq, Parse.length_fill_yoe]
      simp [Parse.get_parsed_posts]
    · rw [heq, Parse.fill_yoe_map_id]
      obtain ⟨o, os, rfl⟩ : ∃ o os, offers = o :: os := by
        cases offers with
        | nil => exact absurd rfl hne
        | cons o os => exact ⟨o, os, rfl⟩
      simp [Parse.get_parsed_posts]
  · intro hbad
    have hoffers : Parse.parse_compensation_with_openai cfg service
        (post.title.getD "" ++ "\n---\n" ++ post.content) = none := by
      simp only [Parse.parse_compensation_with_openai, hs]
      rw [if_neg (by simpa using hne), if_neg (by simp [hbad])]
    simp only [Parse.parse_posts, hoffers]
    rw [if_neg (by simp [hid, hsh]), if_neg (by simp [hcr])]

/-- Witness for C3's amended theorem: with the two valid offers only, both
records are written for the post. -/
theorem c3_all_or_nothing_validation_witness :
    Parse.parse_posts c3Cfg
        (fun _ => some [⟨"Google", "SDE", 3, 30, 40, none, none⟩,
                        ⟨"Amazon", "SDE2", 5, 50, 60, none, none⟩])
        (fun _ => "N/A") [] none [c3Post] =
      Parse.fill_yoe (Parse.get_parsed_posts (fun _ => "N/A") c3Post
        [⟨"Google", "SDE", 3, 30, 40, none, none⟩,
         ⟨"Amazon", "SDE2", 5, 50, 60, none, none⟩]) :=
  ((c3_all_or_nothing_validation c3Cfg
      (fun _ => some [⟨"Google", "SDE", 3, 30, 40, none, none⟩,
                      ⟨"Amazon", "SDE2", 5, 50, 60, none, none⟩])
      (fun _ => "N/A") [] none c3Post
      [⟨"Google", "SDE", 3, 30, 40, none, none⟩,
       ⟨"Amazon", "SDE2", 5, 50, 60, none, none⟩]
      (by simp) (by decide) (by decide) rfl (by simp)).1 (by decide)).1

/-- `sleepsFrom i n` lists the interval bounds of attempts `i, ..., i+n-1`. -/
theorem Retry.sleepsFrom_eq (n : ℕ) : ∀ i, Retry.sleepsFrom i n =
    (List.range' i n).map (fun j => (2 ^ j, 2 ^ (j + 1))) := by
  induction n with
  | zero => intro i; rfl
  | succ n ih =>
    intro i
    rw [Retry.sleepsFrom, List.range'_succ, List.map_cons, ih (i + 1)]

/-- The loop returns immediately with the function's value when the current
attempt succeeds. -/
theorem Retry.retry_loop_ok_now (f : ℕ → Except ε α) (retries : ℤ)
    (i fuel : ℕ) (a : α) (hfuel : 0 < fuel) (hok : f i = .ok a) :
    Retry.retry_loop f retries i fuel = ⟨.value a, [], 1⟩ := by
  cases fuel with
  | zero => omega
  | succ n => rw [Retry.retry_loop]; simp [hok]

/-- The loop's behaviour when attempts `i ≤ j < k` fail and attempt `k`
(within budget) succeeds: it returns the value, having slept once per failed
attempt and called the function `k - i + 1` times. -/
theorem Retry.retry_loop_ok_later (f : ℕ → Except ε α) (retries : ℤ) :
    ∀ (fuel i k : ℕ) (a : α), (i : ℤ) + fuel = retries + 1 → i ≤ k →
    (k : ℤ) ≤ retries →
    (∀ j, i ≤ j → j < k → ∃ e, f j = .error e) → f k = .ok a →
    Retry.retry_loop f retries i fuel =
      ⟨.value a, Retry.sleepsFrom i (k - i), k - i + 1⟩ := by
  intro fuel
  induction fuel with
  | zero =>
    intro i k a hfuel hik hkr hfail hok
    exfalso
    omega
  | succ n ih =>
    intro i k a hfuel hik hkr hfail hok
    rcases Nat.eq_or_lt_of_le hik with rfl | hik'
    · rw [Retry.retry_loop]
      simp [hok, Retry.sleepsFrom]
    · obtain ⟨e, he⟩ := hfail i (le_refl i) hik'
      rw [Retry.retry_loop]
      simp only [he]
      rw [if_neg (by omega)]
      rw [ih (i + 1) k a (by omega) hik' hkr
        (fun j hj1 hj2 => hfail j (by omega) hj2) hok]
      have h1 : k - i = (k - (i + 1)) + 1 := by omega
      rw [h1, Retry.sleepsFrom]

/-- The loop's behaviour when every attempt in the budget fails: it re-raises
the exception of the last attempt, having slept once per failed attempt
(including the last) and called the function once per allowed attempt. -/
theorem Retry.retry_loop_all_fail (f : ℕ → Except ε α) (retries : ℤ) :
    ∀ (fuel i : ℕ), (i : ℤ) + fuel = retries + 1 → 1 ≤ fuel →
    (∀ j, i ≤ j → (j : ℤ) ≤ retries → ∃ e, f j = .error e) →
    ∃ e, f retries.toNat = .error e ∧
      Retry.retry_loop f retries i fuel =
        ⟨.raised e, Retry.sleepsFrom i fuel, fuel⟩ := by
  intro fuel
  induction fuel with
  | zero =>
    intro i hfuel h2
    omega
  | succ n ih =>
    intro i hfuel _ hfail
    obtain ⟨e, he⟩ := hfail i (le_refl i) (by omega)
    cases n with
    | zero =>
      refine ⟨e, ?_, ?_⟩
      · have hi : retries.toNat = i := by omega
        rw [hi]; exact he
      · rw [Retry.retry_loop]
        simp only [he]
        rw [if_pos (by omega)]
        rfl
    | succ m =>
      obtain ⟨e', he', hloop⟩ := ih (i + 1) (by omega) (by omega)
        (fun j hj1 hj2 => hfail j (by omega) hj2)
      refine ⟨e', he', ?_⟩
      rw [Retry.retry_loop]
      simp only [he]
      rw [if_neg (by omega)]
      rw [Retry.sleepsFrom]
      simp [hloop]

/-- C7: for `maxRetries ≥ 1` the wrapper returns the wrapped function's
result unchanged when the first call succeeds (one call, no sleep); when
attempts `1..k-1` raise and attempt `k ≤ maxRetries` succeeds, it returns
that result after sleeping `uniform(2^i, 2^(i+1))` once for each failed
attempt `i`; and when all `maxRetries` attempts raise, it re-raises the last
attempt's exception (after `maxRetries` calls) instead of retrying forever
or swallowing the failure. -/
theorem c7_retry_exponential_backoff (ε α : Type) (f : ℕ → Except ε α)
    (retries : ℤ) (h1 : 1 ≤ retries) :
    (∀ a, f 1 = .ok a →
      Retry.retry_with_exp_backoff f retries = ⟨.value a, [], 1⟩) ∧
    (∀ (k : ℕ) (a : α), 1 ≤ k → (k : ℤ) ≤ retries →
      (∀ j, 1 ≤ j → j < k → ∃ e, f j = .error e) → f k = .ok a →
      Retry.retry_with_exp_backoff f retries =
        ⟨.value a, (List.range' 1 (k - 1)).map (fun i => (2 ^ i, 2 ^ (i + 1))),
          k⟩) ∧
    ((∀ (j : ℕ), 1 ≤ j → (j : ℤ) ≤ retries → ∃ e, f j = .error e) →
      ∃ e, f retries.toNat = .error e ∧
        Retry.retry_with_exp_backoff f retries =
          ⟨.raised e,
            (List.range' 1 retries.toNat).map (fun i => (2 ^ i, 2 ^ (i + 1))),
            retries.toNat⟩) := by
  refine ⟨?_, ?_, ?_⟩
  · intro a hok
    exact Retry.retry_loop_ok_now f retries 1 retries.toNat a (by omega) hok
  · intro k a hk1 hkr hfail hok
    have h := Retry.retry_loop_ok_later f retries retries.toNat 1 k a
      (by omega) hk1 hkr hfail hok
    rw [Retry.retry_with_exp_backoff, h, Retry.sleepsFrom_eq]
    have : k - 1 + 1 = k := by omega
    rw [this]
  · intro hfail
    obtain ⟨e, he, hloop⟩ := Retry.retry_loop_all_fail f retries retries.toNat 1
      (by omega) (by omega) hfail
    refine ⟨e, he, ?_⟩
    rw [Retry.retry_with_exp_backoff, hloop, Retry.sleepsFrom_eq]

/-- Witness for C7: with a 2-attempt budget where attempt 1 raises and
attempt 2 succeeds, the wrapper returns the value after sleeping once with
bounds `(2^1, 2^2)` and calling the function twice. -/
theorem c7_retry_exponential_backoff_witness :
    Retry.retry_with_exp_backoff c7f 2 =
      ⟨Retry.RetryOutcome.value "done", [(2, 4)], 2⟩ := by
  have h := (c7_retry_exponential_backoff String String c7f 2 (by norm_num)).2.1
    2 "done" (by norm_num) (by norm_num)
    (fun j hj1 hj2 => ⟨"e1", by
      have hj : j = 1 := by omega
      subst hj
      rfl⟩)
    (by rfl)
  rw [h]
  decide

/-- Counterexample for C1. Remote: a full first page (50 edges) whose first
item "a" crosses the watermark (date 40 ≤ watermark 50), then a second page
`["b"]`. The claim predicts the entire sync stops with no further pages
fetched and no detail fetch for the crossing item. The run instead: fetches
"a"'s detail BEFORE the watermark check (the list page supplies only topic
ids), `break`s only out of the per-page loop, then fetches the second page
and processes "b" (its detail is fetched too) — 2 pages fetched, detail
calls `["a", "b"]`. -/
theorem c1_counterexample :
    Refresh.refresh_posts c1detail 1000 100 c1file c1pages =
      .ok ([Line.obj (some "z") (some 50)], ⟨[], 0, 0, ["a", "b"], 2⟩) := by rfl

/-- C1 (amended): when an item's detail-derived creation date has crossed
the watermark, the scan of the CURRENT page stops — the remaining items of
that page are not processed and nothing is appended — but the check runs
only after that item's own (expensive) detail fetch, whose call is recorded
in the trace; the driver then still advances to the next list page unless
the page was short or the quota was reached. -/
theorem c1_watermark_stops_current_page (detail : String → Option Refresh.Post)
    (now lag : ℤ) (till : Option ℤ) (existing : List String) (maxPosts : ℕ)
    (t : String) (rest : List String) (st : Refresh.RunState) (p : Refresh.Post)
    (hmem : ¬ t ∈ existing) (hd : detail t = some p)
    (hcross : has_crossed_till_date p.creation_date till = true) :
    Refresh.process_items detail now lag till existing maxPosts (t :: rest) st =
      { st with detail_calls := st.detail_calls ++ [t] } := by
  rw [Refresh.process_items, if_neg hmem]
  simp only [hd]
  rw [if_pos hcross]

/-- Witness for C1's amended theorem: the crossing item "a" is
detail-fetched, then the rest of the page (`["q"]`) is left unprocessed. -/
theorem c1_watermark_stops_current_page_witness :
    Refresh.process_items c1detail 1000 3 (some 50) ["z"] 100 ["a", "q"]
        Refresh.initState =
      { Refresh.initState with
          detail_calls := Refresh.initState.detail_calls ++ ["a"] } :=
  c1_watermark_stops_current_page c1detail 1000 3 (some 50) ["z"] 100 "a" ["q"]
    Refresh.initState ⟨"a", "a|b", "c", 0, 0, 0, 40⟩ (by decide) rfl (by decide)

/-- The per-item loop only ever appends to the run's record list. -/
theorem Refresh.process_items_records_prefix (detail : String → Option Refresh.Post)
    (now lag : ℤ) (till : Option ℤ) (existing : List String) (maxPosts : ℕ) :
    ∀ (items : List String) (st : Refresh.RunState),
    ∃ new, (Refresh.process_items detail now lag till existing maxPosts items
      st).records = st.records ++ new := by
  intro items
  induction items with
  | nil => intro st; exact ⟨[], by simp [Refresh.process_items]⟩
  | cons t rest ih =>
    intro st
    rw [Refresh.process_items]
    split
    · exact ih st
    · cases hd : detail t with
      | none => exact ih _
      | some q =>
        simp only []
        split
        · exact ⟨[], by simp⟩
        · split
          · exact ih _
          · split
            · split
              · exact ⟨[q], rfl⟩
              · obtain ⟨new, hnew⟩ := ih
                  { st with detail_calls := st.detail_calls ++ [t],
                            records := st.records ++ [q], count := st.count + 1 }
                exact ⟨[q] ++ new, by rw [hnew]; simp⟩
            · exact ih _

/-- Every record the per-item loop appends has a creation date outside the
lag window (the invariant is preserved from the initial state). -/
theorem Refresh.process_items_no_lag (detail : String → Option Refresh.Post)
    (now lag : ℤ) (till : Option ℤ) (existing : List String) (maxPosts : ℕ) :
    ∀ (items : List String) (st : Refresh.RunState),
    (∀ p ∈ st.records,
      Refresh.is_within_lag_period now lag p.creation_date = false) →
    ∀ p ∈ (Refresh.process_items detail now lag till existing maxPosts items
        st).records,
      Refresh.is_within_lag_period now lag p.creation_date = false := by
  intro items
  induction items with
  | nil =>
    intro st h p hp
    rw [Refresh.process_items] at hp
    exact h p hp
  | cons t rest ih =>
    intro st h p hp
    rw [Refresh.process_items] at hp
    split at hp
    · exact ih st h p hp
    · split at hp
      · exact ih { st with detail_calls := st.detail_calls ++ [t] } h p hp
      · split at hp
        · exact h p hp
        · split at hp
          · exact ih
              { st with detail_calls := st.detail_calls ++ [t], lag_skips := st.lag_skips + 1 }
              h p hp
          · split at hp
            · rename_i q hq hcross hlag hshould
              have hlag' : Refresh.is_within_lag_period now lag
                  q.creation_date = false := by
                simpa using hlag
              have hstep : ∀ r ∈ st.records ++ [q],
                  Refresh.is_within_lag_period now lag r.creation_date = false := by
                intro r hr
                rcases List.mem_append.mp hr with hr' | hr'
                · exact h r hr'
                · rcases List.mem_singleton.mp hr' with rfl
                  exact hlag'
              split at hp
              · exact hstep p hp
              · exact ih
                  { st with detail_calls := st.detail_calls ++ [t], records := st.records ++ [q], count := st.count + 1 }
                  hstep p hp
            · exact ih { st with detail_calls := st.detail_calls ++ [t] } h p hp

/-- Every record the page loop appends has a creation date outside the lag
window. -/
theorem Refresh.refresh_pages_no_lag (detail : String → Option Refresh.Post)
    (now lag : ℤ) (till : Option ℤ) (existing : List String)
    (maxPosts first : ℕ) :
    ∀ (pages : List (List String)) (st : Refresh.RunState),
    (∀ p ∈ st.records,
      Refresh.is_within_lag_period now lag p.creation_date = false) →
    ∀ p ∈ (Refresh.refresh_pages detail now lag till existing maxPosts first
        pages st).records,
      Refresh.is_within_lag_period now lag p.creation_date = false := by
  intro pages
  induction pages with
  | nil =>
    intro st h p hp
    rw [Refresh.refresh_pages] at hp
    split at hp
    · exact h p hp
    · exact h p hp
  | cons page rest ih =>
    intro st h p hp
    rw [Refresh.refresh_pages] at hp
    split at hp
    · split at hp
      · exact h p hp
      · split at hp
        · exact Refresh.process_items_no_lag detail now lag till existing
            maxPosts page
            { st with pages_fetched := st.pages_fetched + 1 } h p hp
        · exact ih _ (Refresh.process_items_no_lag detail now lag till existing
            maxPosts page
            { st with pages_fetched := st.pages_fetched + 1 } h) p hp
    · exact h p hp

/-- C5: (i) every record a sync run appends to the raw store has a creation
date outside the lag window — an item observed while inside the window is
never appended on that run; (ii) a lag-window skip leaves the fetched-posts
counter and the record list untouched and the scan continues with the rest
of the page (only the lag counter and the detail-call trace grow); (iii) on
a later run whose `now` has moved past `creation_date + lag`, the same item
(still returned by the remote, admissible, not yet stored, not past the
watermark) IS appended. -/
theorem c5_lag_window_exclusion (detail : String → Option Refresh.Post)
    (lag : ℤ) :
    (∀ (now : ℤ) (till : Option ℤ) (existing : List String)
        (maxPosts first : ℕ) (pages : List (List String)),
      ∀ p ∈ (Refresh.refresh_pages detail now lag till existing maxPosts first
          pages Refresh.initState).records,
        Refresh.is_within_lag_period now lag p.creation_date = false) ∧
    (∀ (now : ℤ) (till : Option ℤ) (existing : List String) (maxPosts : ℕ)
        (t : String) (rest : List String) (st : Refresh.RunState)
        (p : Refresh.Post),
      ¬ t ∈ existing → detail t = some p →
      has_crossed_till_date p.creation_date till = false →
      Refresh.is_within_lag_period now lag p.creation_date = true →
      Refresh.process_items detail now lag till existing maxPosts (t :: rest)
          st =
        Refresh.process_items detail now lag till existing maxPosts rest
          { st with detail_calls := st.detail_calls ++ [t],
                    lag_skips := st.lag_skips + 1 }) ∧
    (∀ (now2 : ℤ) (till : Option ℤ) (existing : List String) (maxPosts : ℕ)
        (t : String) (rest : List String) (st : Refresh.RunState)
        (p : Refresh.Post),
      ¬ t ∈ existing → detail t = some p →
      has_crossed_till_date p.creation_date till = false →
      Refresh.is_within_lag_period now2 lag p.creation_date = false →
      Refresh.should_parse_post p = true →
      p ∈ (Refresh.process_items detail now2 lag till existing maxPosts
          (t :: rest) st).records) := by
  refine ⟨?_, ?_, ?_⟩
  · intro now till existing maxPosts first pages p hp
    exact Refresh.refresh_pages_no_lag detail now lag till existing maxPosts
      first pages Refresh.initState (by intro r hr; cases hr) p hp
  · intro now till existing maxPosts t rest st p hmem hd hcross hlag
    rw [Refresh.process_items, if_neg hmem]
    simp only [hd]
    rw [if_neg (by simp [hcross]), if_pos hlag]
  · intro now2 till existing maxPosts t rest st p hmem hd hcross hlag hshould
    rw [Refresh.process_items, if_neg hmem]
    simp only [hd]
    rw [if_neg (by simp [hcross]), if_neg (by simp [hlag]), if_pos hshould]
    split
    · simp
    · obtain ⟨new, hnew⟩ := Refresh.process_items_records_prefix detail now2 lag
        till existing maxPosts rest
        { st with detail_calls := st.detail_calls ++ [t],
                  records := st.records ++ [p], count := st.count + 1 }
      rw [hnew]
      simp

/-- Witness for C5 with lag 5 and a post dated 98: at `now = 100` the item is
inside the window and skipped without touching the counter or stopping the
scan; at `now = 110` it is appended. -/
theorem c5_lag_window_exclusion_witness :
    Refresh.is_within_lag_period 110 5 98 = false ∧
    Refresh.process_items c5detail 100 5 none [] 100 ["n", "m"]
        Refresh.initState =
      Refresh.process_items c5detail 100 5 none [] 100 ["m"]
        { Refresh.initState with
            detail_calls := Refresh.initState.detail_calls ++ ["n"],
            lag_skips := Refresh.initState.lag_skips + 1 } ∧
    (⟨"n", "a|b", "c", 0, 0, 0, 98⟩ : Refresh.Post) ∈
      (Refresh.process_items c5detail 110 5 none [] 100 ["n"]
        Refresh.initState).records :=
  ⟨(c5_lag_window_exclusion c5detail 5).1 110 none [] 100 50 [["n"]]
      ⟨"n", "a|b", "c", 0, 0, 0, 98⟩ (by decide),
   (c5_lag_window_exclusion c5detail 5).2.1 100 none [] 100 "n" ["m"]
      Refresh.initState ⟨"n", "a|b", "c", 0, 0, 0, 98⟩ (by decide) rfl
      (by decide) (by decide),
   (c5_lag_window_exclusion c5detail 5).2.2 110 none [] 100 "n" []
      Refresh.initState ⟨"n", "a|b", "c", 0, 0, 0, 98⟩ (by decide) rfl
      (by decide) (by decide) (by decide)⟩

/-- On a store whose lines are all well-formed objects carrying an id, the
refresh-module id reader succeeds and returns exactly those ids. -/
theorem Refresh.get_existing_ids_go_eq (lines : List Line)
    (h : ∀ l ∈ lines, ∃ i d, l = Line.obj (some i) d) :
    Refresh.get_existing_ids_go lines = .ok (lines.filterMap Line.idOf) := by
  induction lines with
  | nil => rfl
  | cons l rest ih =>
    obtain ⟨i, d, rfl⟩ := h l (List.mem_cons_self l rest)
    have := ih (fun x hx => h x (List.mem_cons_of_mem _ hx))
    simp only [Refresh.get_existing_ids_go, this, List.filterMap_cons, Line.idOf]
    rfl

/-- When the refresh-module id reader succeeds, every line was a well-formed
object carrying an id, and the result is the list of those ids. -/
theorem Refresh.get_existing_ids_go_shape (lines : List Line)
    (ids : List String) (h : Refresh.get_existing_ids_go lines = .ok ids) :
    ids = lines.filterMap Line.idOf ∧
    ∀ l ∈ lines, ∃ i d, l = Line.obj (some i) d := by
  induction lines generalizing ids with
  | nil =>
    refine ⟨?_, by simp⟩
    cases h
    rfl
  | cons l rest ih =>
    cases l with
    | malformed => exact absurd h (by simp [Refresh.get_existing_ids_go])
    | obj oi od =>
      cases oi with
      | none => exact absurd h (by simp [Refresh.get_existing_ids_go])
      | some i =>
        rw [Refresh.get_existing_ids_go] at h
        cases hrest : Refresh.get_existing_ids_go rest with
        | error e => rw [hrest] at h; cases h
        | ok ids' =>
          rw [hrest] at h
          obtain ⟨hids', hshape⟩ := ih ids' hrest
          injection h with h'
          subst h'
          refine ⟨by simp [List.filterMap_cons, Line.idOf, hids'], ?_⟩
          intro x hx
          rcases List.mem_cons.mp hx with rfl | hx'
          · exact ⟨i, od, rfl⟩
          · exact hshape x hx'

/-- Ids appended by the per-item loop: they come from pairwise-distinct list
edges (a sublist of the page, in order) and are never ids that were already
in the store's id set. -/
theorem Refresh.process_items_ids (detail : String → Option Refresh.Post)
    (now lag : ℤ) (till : Option ℤ) (existing : List String) (maxPosts : ℕ)
    (hdet : ∀ t p, detail t = some p → p.id = t) :
    ∀ (items : List String) (st : Refresh.RunState),
    ∃ new, (Refresh.process_items detail now lag till existing maxPosts items
        st).records = st.records ++ new ∧
      List.Sublist (new.map Refresh.Post.id) items ∧ ∀ q ∈ new, ¬ q.id ∈ existing := by
  intro items
  induction items with
  | nil =>
    intro st
    exact ⟨[], by simp [Refresh.process_items], List.nil_sublist _, by simp⟩
  | cons t rest ih =>
    intro st
    rw [Refresh.process_items]
    split
    · obtain ⟨new, h1, h2, h3⟩ := ih st
      exact ⟨new, h1, h2.cons t, h3⟩
    · rename_i hmem
      cases hd : detail t with
      | none =>
        obtain ⟨new, h1, h2, h3⟩ := ih
          { st with detail_calls := st.detail_calls ++ [t] }
        exact ⟨new, h1, h2.cons t, h3⟩
      | some q =>
        simp only []
        split
        · exact ⟨[], by simp, List.nil_sublist _, by simp⟩
        · split
          · obtain ⟨new, h1, h2, h3⟩ := ih
              { st with detail_calls := st.detail_calls ++ [t], lag_skips := st.lag_skips + 1 }
            exact ⟨new, h1, h2.cons t, h3⟩
          · split
            · split
              · refine ⟨[q], by simp, ?_, ?_⟩
                · rw [List.map_cons, List.map_nil, hdet t q hd]
                  exact (List.nil_sublist rest).cons₂ t
                · intro r hr
                  rcases List.mem_singleton.mp hr with rfl
                  rw [hdet t r hd]
                  exact hmem
              · obtain ⟨new, h1, h2, h3⟩ := ih
                  { st with detail_calls := st.detail_calls ++ [t], records := st.records ++ [q], count := st.count + 1 }
                refine ⟨q :: new, ?_, ?_, ?_⟩
                · rw [h1]
                  simp
                · rw [List.map_cons, hdet t q hd]
                  exact h2.cons₂ t
                · intro r hr
                  rcases List.mem_cons.mp hr with rfl | hr'
                  · rw [hdet t r hd]
                    exact hmem
                  · exact h3 r hr'
            · obtain ⟨new, h1, h2, h3⟩ := ih
                { st with detail_calls := st.detail_calls ++ [t] }
              exact ⟨new, h1, h2.cons t, h3⟩

/-- Ids appended by the page loop: a sublist of the concatenated remote
pages, never colliding with the store's id set. -/
theorem Refresh.refresh_pages_ids (detail : String → Option Refresh.Post)
    (now lag : ℤ) (till : Option ℤ) (existing : List String)
    (maxPosts first : ℕ) (hdet : ∀ t p, detail t = some p → p.id = t) :
    ∀ (pages : List (List String)) (st : Refresh.RunState),
    ∃ new, (Refresh.refresh_pages detail now lag till existing maxPosts first
        pages st).records = st.records ++ new ∧
      List.Sublist (new.map Refresh.Post.id) pages.flatten ∧ ∀ q ∈ new, ¬ q.id ∈ existing := by
  intro pages
  induction pages with
  | nil =>
    intro st
    refine ⟨[], ?_, List.nil_sublist _, by simp⟩
    rw [Refresh.refresh_pages]
    split <;> simp
  | cons page rest ih =>
    intro st
    rw [Refresh.refresh_pages]
    split
    · split
      · exact ⟨[], by simp, List.nil_sublist _, by simp⟩
      · split
        · obtain ⟨new, h1, h2, h3⟩ := Refresh.process_items_ids detail now lag
            till existing maxPosts hdet page
            { st with pages_fetched := st.pages_fetched + 1 }
          refine ⟨new, h1, ?_, h3⟩
          exact h2.trans (List.sublist_append_left page rest.flatten)
        · obtain ⟨new1, h11, h12, h13⟩ := Refresh.process_items_ids detail now
            lag till existing maxPosts hdet page
            { st with pages_fetched := st.pages_fetched + 1 }
          obtain ⟨new2, h21, h22, h23⟩ := ih
            (Refresh.process_items detail now lag till existing maxPosts page
              { st with pages_fetched := st.pages_fetched + 1 })
          refine ⟨new1 ++ new2, ?_, ?_, ?_⟩
          · rw [h21, h11, List.append_assoc]
          · rw [List.map_append]
            exact h12.append h22
          · intro r hr
            rcases List.mem_append.mp hr with hr' | hr'
            · exact h13 r hr'
            · exact h23 r hr'
    · exact ⟨[], by simp, List.nil_sublist _, by simp⟩

/-- The ids of the records kept by the sort's valid-line filter are, in
order, among the ids of the file. -/
theorem datedRec_fst_sublist (lines : List Line) :
    List.Sublist ((lines.filterMap Line.datedRec).filterMap Prod.fst)
      (lines.filterMap Line.idOf) := by
  induction lines with
  | nil => simp
  | cons l rest ih =>
    cases l with
    | malformed =>
      simpa [Line.datedRec, Line.idOf, List.filterMap_cons] using ih
    | obj oi od =>
      cases od with
      | none =>
        cases oi with
        | none => simpa [Line.datedRec, Line.idOf, List.filterMap_cons] using ih
        | some i =>
          simp only [Line.datedRec, Line.idOf, List.filterMap_cons]
          exact ih.cons i
      | some d =>
        cases oi with
        | none => simpa [Line.datedRec, Line.idOf, List.filterMap_cons] using ih
        | some i =>
          simp only [Line.datedRec, Line.idOf, List.filterMap_cons]
          exact ih.cons₂ i

/-- On a store of well-formed id-carrying lines there is one id per line. -/
theorem filterMap_idOf_length (lines : List Line)
    (h : ∀ l ∈ lines, ∃ i d, l = Line.obj (some i) d) :
    (lines.filterMap Line.idOf).length = lines.length := by
  induction lines with
  | nil => rfl
  | cons l rest ih =>
    obtain ⟨i, d, rfl⟩ := h l (List.mem_cons_self l rest)
    simp [List.filterMap_cons, Line.idOf,
      ih (fun x hx => h x (List.mem_cons_of_mem _ hx))]

/-- A list of records whose first components are all `some` loses nothing
under `filterMap Prod.fst`. -/
theorem filterMap_fst_length (l : List (Option String × Int))
    (h : ∀ r ∈ l, ∃ i, r.1 = some i) :
    (l.filterMap Prod.fst).length = l.length := by
  induction l with
  | nil => rfl
  | cons r rest ih =>
    obtain ⟨i, hi⟩ := h r (List.mem_cons_self r rest)
    simp [List.filterMap_cons, hi,
      ih (fun x hx => h x (List.mem_cons_of_mem _ hx))]

/-- Valid records extracted from well-formed id-carrying lines all carry an
id in their first component. -/
theorem datedRec_fst_some (lines : List Line)
    (h : ∀ l ∈ lines, ∃ i d, l = Line.obj (some i) d) :
    ∀ r ∈ lines.filterMap Line.datedRec, ∃ i, r.1 = some i := by
  induction lines with
  | nil => simp
  | cons l rest ih =>
    obtain ⟨i, d, rfl⟩ := h l (List.mem_cons_self l rest)
    intro r hr
    cases d with
    | none =>
      exact ih (fun x hx => h x (List.mem_cons_of_mem _ hx)) r
        (by simpa [List.filterMap_cons, Line.datedRec] using hr)
    | some d' =>
      rw [List.filterMap_cons] at hr
      simp only [Line.datedRec] at hr
      rcases List.mem_cons.mp hr with rfl | hr'
      · exact ⟨i, rfl⟩
      · exact ih (fun x hx => h x (List.mem_cons_of_mem _ hx)) r hr'

/-- The store lines appended for a run's records carry exactly the records'
ids. -/
theorem lineOfPost_ids (new : List Refresh.Post) :
    (new.map Refresh.lineOfPost).filterMap Line.idOf =
      new.map Refresh.Post.id := by
  induction new with
  | nil => rfl
  | cons p rest ih =>
    simp [Refresh.lineOfPost, Line.idOf, List.filterMap_cons, ih]

/-- Lines of record pairs written back by the sort carry exactly the pairs'
first components. -/
theorem mapObj_ids (l : List (Option String × Int)) :
    ((l.map (fun r => Line.obj r.1 (some r.2))).filterMap Line.idOf) =
      l.filterMap Prod.fst := by
  induction l with
  | nil => rfl
  | cons r rest ih =>
    simp only [List.map_cons, List.filterMap_cons, Line.idOf, ih]

/-- C2 (amended): if the initial raw store contains no duplicate ids, the
remote pages present pairwise-distinct topic ids across the whole run, and
every detail payload's id equals the topic id it was fetched for, then after
a successful `refresh_posts` run the raw store has no two lines with the
same id: `existingIds` succeeds on the result and its cardinality (dedup
length) equals the store's line count. -/
theorem c2_no_duplicate_ids_after_sync (detail : String → Option Refresh.Post)
    (now : ℤ) (maxPosts : ℕ) (file : List Line) (pages : List (List String))
    (out : List Line) (st : Refresh.RunState)
    (hdet : ∀ t p, detail t = some p → p.id = t)
    (hnodupFile : (file.filterMap Line.idOf).Nodup)
    (hnodupRemote : pages.flatten.Nodup)
    (hrun : Refresh.refresh_posts detail now maxPosts file pages =
      .ok (out, st)) :
    Refresh.get_existing_ids (some out) = .ok (out.filterMap Line.idOf) ∧
    (out.filterMap Line.idOf).Nodup ∧
    (out.filterMap Line.idOf).dedup.length = out.length := by
  simp only [Refresh.refresh_posts] at hrun
  cases hge : Refresh.get_existing_ids (some file) with
  | error e =>
    rw [hge] at hrun
    cases hrun
  | ok existing =>
    rw [hge] at hrun
    simp only [Except.ok.injEq, Prod.mk.injEq] at hrun
    obtain ⟨hout, hst⟩ := hrun
    obtain ⟨hexist, hshapeFile⟩ :=
      Refresh.get_existing_ids_go_shape file existing hge
    obtain ⟨new, hnew, hsub, hdisj⟩ := Refresh.refresh_pages_ids detail now
      Refresh.LAG_DAYS (Utils.latest_parsed_date file) existing maxPosts 50
      hdet pages Refresh.initState
    have hrecs0 : Refresh.initState.records = [] := rfl
    rw [hrecs0, List.nil_append] at hnew
    subst hexist
    set combined := file ++ ((Refresh.refresh_pages detail now Refresh.LAG_DAYS
      (Utils.latest_parsed_date file) (file.filterMap Line.idOf) maxPosts 50
      pages Refresh.initState).records.map Refresh.lineOfPost) with hcombined
    have hshapeNew : ∀ l ∈ combined, ∃ i d, l = Line.obj (some i) d := by
      intro l hl
      rcases List.mem_append.mp hl with hl' | hl'
      · exact hshapeFile l hl'
      · rcases List.mem_map.mp hl' with ⟨p, _, rfl⟩
        exact ⟨p.id, some p.creation_date, rfl⟩
    have hcombIds : combined.filterMap Line.idOf =
        file.filterMap Line.idOf ++ new.map Refresh.Post.id := by
      rw [hcombined, List.filterMap_append, hnew, lineOfPost_ids]
    have hnodupComb : (combined.filterMap Line.idOf).Nodup := by
      rw [hcombIds]
      rw [List.nodup_append]
      refine ⟨hnodupFile, hnodupRemote.sublist hsub, ?_⟩
      intro a ha hb
      rcases List.mem_map.mp hb with ⟨q, hq, rfl⟩
      exact hdisj q hq ha
    have hcombLen : (combined.filterMap Line.idOf).length = combined.length :=
      filterMap_idOf_length combined hshapeNew
    by_cases hval : (combined.filterMap Line.datedRec).isEmpty = true
    · have hout' : out = combined := by
        rw [← hout]
        simp only [Utils.sort_and_truncate]
        rw [if_pos hval]
      subst hout'
      exact ⟨Refresh.get_existing_ids_go_eq combined hshapeNew, hnodupComb,
        by rw [List.dedup_eq_self.mpr hnodupComb, hcombLen]⟩
    · have hout' : out =
          ((combined.filterMap Line.datedRec).insertionSort
            Utils.newestFirst).map (fun r => Line.obj r.1 (some r.2)) := by
        rw [← hout]
        simp only [Utils.sort_and_truncate]
        rw [if_neg hval]
        simp
      have hperm : List.Perm ((combined.filterMap Line.datedRec).insertionSort
          Utils.newestFirst) (combined.filterMap Line.datedRec) :=
        List.perm_insertionSort Utils.newestFirst _
      have houtIds : out.filterMap Line.idOf =
          ((combined.filterMap Line.datedRec).insertionSort
            Utils.newestFirst).filterMap Prod.fst := by
        rw [hout', mapObj_ids]
      have hpermIds : List.Perm (((combined.filterMap Line.datedRec).insertionSort
          Utils.newestFirst).filterMap Prod.fst)
          ((combined.filterMap Line.datedRec).filterMap Prod.fst) :=
        hperm.filterMap Prod.fst
      have hnodupOut : (out.filterMap Line.idOf).Nodup := by
        rw [houtIds]
        exact hpermIds.nodup_iff.mpr
          (hnodupComb.sublist (datedRec_fst_sublist combined))
      have hsortedSome : ∀ r ∈ (combined.filterMap Line.datedRec).insertionSort
          Utils.newestFirst, ∃ i, r.1 = some i := by
        intro r hr
        exact datedRec_fst_some combined hshapeNew r
          ((List.mem_insertionSort Utils.newestFirst).mp hr)
      have hshapeOut : ∀ l ∈ out, ∃ i d, l = Line.obj (some i) d := by
        intro l hl
        rw [hout'] at hl
        rcases List.mem_map.mp hl with ⟨r, hr, rfl⟩
        obtain ⟨i, hi⟩ := hsortedSome r hr
        exact ⟨i, some r.2, by rw [hi]⟩
      have hlenOut : (out.filterMap Line.idOf).length = out.length := by
        rw [houtIds, hout', List.length_map]
        exact filterMap_fst_length _ hsortedSome
      exact ⟨Refresh.get_existing_ids_go_eq out hshapeOut, hnodupOut,
        by rw [List.dedup_eq_self.mpr hnodupOut, hlenOut]⟩

/-- Counterexample for C2, falsifying the claim as stated (for EVERY initial
store and remote sequence). Scenario 1: an initial store with two lines
sharing id "d" and an empty remote — the run succeeds but the resulting
store still has 2 lines and 1 distinct id (`sort_and_truncate` never
dedupes). Scenario 2: an empty store and a remote page repeating topic "7" —
`existing_ids` is computed once and not updated during the run, so the item
is appended twice: 2 lines, 1 distinct id. -/
theorem c2_counterexample :
    (Refresh.refresh_posts c2detail 1000 100 c2fileDup [] =
      .ok ([Line.obj (some "d") (some 5), Line.obj (some "d") (some 5)],
        ⟨[], 0, 0, [], 1⟩)) ∧
    (([Line.obj (some "d") (some 5),
       Line.obj (some "d") (some 5)].filterMap Line.idOf).dedup.length = 1) ∧
    (Refresh.refresh_posts c2detail 1000 100 [] [["7", "7"]] =
      .ok ([Line.obj (some "7") (some 10), Line.obj (some "7") (some 10)],
        ⟨[⟨"7", "a|b", "c", 0, 0, 0, 10⟩, ⟨"7", "a|b", "c", 0, 0, 0, 10⟩],
          2, 0, ["7", "7"], 1⟩)) := by
  exact ⟨rfl, by decide, rfl⟩

/-- Witness for C2's amended theorem on a concrete clean run: one stored
record, one new remote item. -/
theorem c2_no_duplicate_ids_after_sync_witness :
    Refresh.get_existing_ids
        (some [Line.obj (some "y") (some 10), Line.obj (some "x") (some 5)]) =
      .ok ([Line.obj (some "y") (some 10),
            Line.obj (some "x") (some 5)].filterMap Line.idOf) ∧
    ([Line.obj (some "y") (some 10),
      Line.obj (some "x") (some 5)].filterMap Line.idOf).Nodup ∧
    ([Line.obj (some "y") (some 10),
      Line.obj (some "x") (some 5)].filterMap Line.idOf).dedup.length =
      [Line.obj (some "y") (some 10), Line.obj (some "x") (some 5)].length :=
  c2_no_duplicate_ids_after_sync c2detail 1000 100
    [Line.obj (some "x") (some 5)] [["y"]]
    [Line.obj (some "y") (some 10), Line.obj (some "x") (some 5)]
    ⟨[⟨"y", "a|b", "c", 0, 0, 0, 10⟩], 1, 0, ["y"], 1⟩
    (fun t p h => by
      simp only [c2detail, Option.some.injEq] at h
      rw [← h])
    (by decide) (by decide) rfl

end LeetComp
